import Mathlib

/-!
Shallow embedding of the Quantum State Vector component specified for the
`quantum_codes` repository.  The repository's sources are tutorial notebooks
that call a third-party SDK's `Statevector` object (construction, `is_valid`,
`probabilities`, `probabilities_dict`, `measure`, `sample_counts`, `equiv`);
the implementation of that object is not part of the repository, so every
operation below is modelled from the specification's words.

Amplitudes are complex numbers over a linear ordered field `K`: instantiating
`K` with `ℚ` gives fully computable witnesses, instantiating with `ℝ` covers
the specification's `1/sqrt 2` examples.  The equivalence checker needs real
magnitudes (square roots), so it is stated over `ℝ`.
-/

namespace QuantumSV

/-- Modelled from the spec: a complex amplitude (the spec's external
complex-number library is not in the repository), represented by real and
imaginary parts over an ordered field `K`. -/
structure Cplx (K : Type) where
  re : K
  im : K
deriving DecidableEq, Repr

variable {K : Type} [LinearOrderedField K]

instance : Zero (Cplx K) := ⟨⟨0, 0⟩⟩

instance : One (Cplx K) := ⟨⟨1, 0⟩⟩

instance : Add (Cplx K) := ⟨fun z w => ⟨z.re + w.re, z.im + w.im⟩⟩

instance : Neg (Cplx K) := ⟨fun z => ⟨-z.re, -z.im⟩⟩

instance : Sub (Cplx K) := ⟨fun z w => ⟨z.re - w.re, z.im - w.im⟩⟩

instance : Mul (Cplx K) :=
  ⟨fun z w => ⟨z.re * w.re - z.im * w.im, z.re * w.im + z.im * w.re⟩⟩

@[simp] theorem Cplx.zero_re : (0 : Cplx K).re = 0 := rfl

@[simp] theorem Cplx.zero_im : (0 : Cplx K).im = 0 := rfl

@[simp] theorem Cplx.one_re : (1 : Cplx K).re = 1 := rfl

@[simp] theorem Cplx.one_im : (1 : Cplx K).im = 0 := rfl

@[simp] theorem Cplx.mul_re (z w : Cplx K) :
    (z * w).re = z.re * w.re - z.im * w.im := rfl

@[simp] theorem Cplx.mul_im (z w : Cplx K) :
    (z * w).im = z.re * w.im + z.im * w.re := rfl

@[simp] theorem Cplx.sub_re (z w : Cplx K) : (z - w).re = z.re - w.re := rfl

@[simp] theorem Cplx.sub_im (z w : Cplx K) : (z - w).im = z.im - w.im := rfl

/-- Modelled from the spec: the squared magnitude `|z|^2` of an amplitude,
the quantity the spec's `is_valid` and `probabilities` are defined from. -/
def Cplx.normSq (z : Cplx K) : K := z.re * z.re + z.im * z.im

/-- Modelled from the spec: complex conjugate, used to express division. -/
def Cplx.conj (z : Cplx K) : Cplx K := ⟨z.re, -z.im⟩

/-- Modelled from the spec: complex division `z / w` (the spec's external
complex-arithmetic library), via the conjugate formula. -/
def Cplx.div (z w : Cplx K) : Cplx K :=
  ⟨(z.re * w.re + z.im * w.im) / w.normSq, (z.im * w.re - z.re * w.im) / w.normSq⟩

theorem Cplx.normSq_nonneg (z : Cplx K) : 0 ≤ z.normSq :=
  add_nonneg (mul_self_nonneg _) (mul_self_nonneg _)

theorem Cplx.normSq_eq_zero_iff (z : Cplx K) : z.normSq = 0 ↔ z = 0 := by
  constructor
  · intro h
    obtain ⟨a, b⟩ := z
    have h1 : a * a + b * b = 0 := h
    have h2 := (add_eq_zero_iff_of_nonneg (mul_self_nonneg a) (mul_self_nonneg b)).mp h1
    have ha : a = 0 := mul_self_eq_zero.mp h2.1
    have hb : b = 0 := mul_self_eq_zero.mp h2.2
    subst ha
    subst hb
    rfl
  · rintro rfl
    simp [Cplx.normSq]

theorem Cplx.normSq_mul (z w : Cplx K) :
    (z * w).normSq = z.normSq * w.normSq := by
  simp only [Cplx.normSq, Cplx.mul_re, Cplx.mul_im]
  ring

@[simp] theorem Cplx.add_re (z w : Cplx K) : (z + w).re = z.re + w.re := rfl

@[simp] theorem Cplx.add_im (z w : Cplx K) : (z + w).im = z.im + w.im := rfl

@[simp] theorem Cplx.neg_re (z : Cplx K) : (-z).re = -z.re := rfl

@[simp] theorem Cplx.neg_im (z : Cplx K) : (-z).im = -z.im := rfl

@[ext] theorem Cplx.ext {z w : Cplx K} (h1 : z.re = w.re) (h2 : z.im = w.im) :
    z = w := by
  cases z
  cases w
  cases h1
  cases h2
  rfl

instance : CommRing (Cplx K) where
  add := (· + ·)
  add_assoc := by intros; ext <;> simp [add_assoc]
  zero := 0
  zero_add := by intros; ext <;> simp
  add_zero := by intros; ext <;> simp
  add_comm := by intros; ext <;> simp [add_comm]
  mul := (· * ·)
  mul_assoc := by intros; ext <;> simp <;> ring
  one := 1
  one_mul := by intros; ext <;> simp
  mul_one := by intros; ext <;> simp
  left_distrib := by intros; ext <;> simp <;> ring
  right_distrib := by intros; ext <;> simp <;> ring
  zero_mul := by intros; ext <;> simp
  mul_zero := by intros; ext <;> simp
  mul_comm := by intros; ext <;> simp <;> ring
  nsmul := nsmulRec
  zsmul := zsmulRec
  neg := Neg.neg
  sub := (· - ·)
  sub_eq_add_neg := by intros; ext <;> simp [sub_eq_add_neg]
  neg_add_cancel := by intros; ext <;> simp

@[simp] theorem Cplx.normSq_neg (z : Cplx K) : (-z).normSq = z.normSq := by
  simp [Cplx.normSq]

@[simp] theorem Cplx.normSq_one : (1 : Cplx K).normSq = 1 := by
  simp [Cplx.normSq]

@[simp] theorem Cplx.normSq_zero : (0 : Cplx K).normSq = 0 := by
  simp [Cplx.normSq]

theorem Cplx.conj_mul_self (z : Cplx K) : z.conj * z = ⟨z.normSq, 0⟩ := by
  ext <;> simp [Cplx.conj, Cplx.normSq] <;> ring

@[simp] theorem Cplx.normSq_conj (z : Cplx K) : z.conj.normSq = z.normSq := by
  simp [Cplx.conj, Cplx.normSq]

theorem Cplx.conj_mul_self_eq_one {z : Cplx K} (h : z.normSq = 1) :
    z.conj * z = 1 := by
  rw [Cplx.conj_mul_self, h]
  rfl

theorem Cplx.div_mul_left (c z w : Cplx K) :
    Cplx.div (c * z) w = c * Cplx.div z w := by
  ext <;> simp [Cplx.div] <;> ring

theorem Cplx.div_mul_right {c : Cplx K} (hc : c.normSq = 1) (z w : Cplx K) :
    Cplx.div z (c * w) = c.conj * Cplx.div z w := by
  ext <;> simp [Cplx.div, Cplx.normSq_mul, hc, Cplx.conj] <;> ring

theorem Cplx.div_self_eq_one {z : Cplx K} (hz : z.normSq ≠ 0) : Cplx.div z z = 1 := by
  ext
  · show (z.re * z.re + z.im * z.im) / z.normSq = 1
    exact div_self hz
  · show (z.im * z.re - z.re * z.im) / z.normSq = 0
    rw [show z.im * z.re - z.re * z.im = 0 by ring, zero_div]

theorem Cplx.normSq_div (z w : Cplx K) :
    (Cplx.div z w).normSq = z.normSq / w.normSq := by
  by_cases hw : w.normSq = 0
  · simp only [Cplx.div, hw, div_zero]
    simp [Cplx.normSq]
  · have hw' : w.re * w.re + w.im * w.im ≠ 0 := hw
    rw [eq_div_iff hw]
    simp only [Cplx.div, Cplx.normSq]
    field_simp
    ring

/-- The error kinds named by the specification's error-handling design. -/
inductive ErrKind : Type where
  | DimensionError
  | IndexError
  | InvalidStateError
  | ArgumentError
deriving DecidableEq, Repr

/-- Modelled from the spec: a StateVector holds an ordered sequence of
complex amplitudes (the SDK's `Statevector` object is not in the
repository's sources). -/
structure StateVector (K : Type) where
  amps : List (Cplx K)
deriving DecidableEq

/-- Power-of-two test used by `construct`. -/
def isPowTwo (m : ℕ) : Bool := decide (m = 2 ^ Nat.log2 m)

theorem isPowTwo_iff (m : ℕ) : isPowTwo m = true ↔ ∃ k, m = 2 ^ k := by
  constructor
  · intro h
    exact ⟨Nat.log2 m, of_decide_eq_true h⟩
  · rintro ⟨k, rfl⟩
    have : Nat.log2 (2 ^ k) = k := by
      rw [Nat.log2_eq_log_two, Nat.log_pow one_lt_two]
    simp [isPowTwo, this]

/-- Modelled from the spec: `construct(amplitudes)` fails with
`DimensionError` if the length is not a power of two, otherwise succeeds
regardless of normalization. -/
def construct (amps : List (Cplx K)) : Except ErrKind (StateVector K) :=
  if isPowTwo amps.length then .ok ⟨amps⟩ else .error .DimensionError

/-- Sum of squared amplitude magnitudes. -/
def sumNormSq (v : StateVector K) : K := (v.amps.map Cplx.normSq).sum

/-- Modelled from the spec: `is_valid(tolerance)` returns true iff
`|sum(|a_i|^2) - 1| <= tolerance`. -/
def is_valid (tol : K) (v : StateVector K) : Bool :=
  decide (|sumNormSq v - 1| ≤ tol)

/-- Modelled from the spec: `num_qubits()` is `log2(length)`, failing with
`DimensionError` if the length is not a power of two. -/
def num_qubits (v : StateVector K) : Except ErrKind ℕ :=
  if isPowTwo v.amps.length then .ok (Nat.log2 v.amps.length) else .error .DimensionError

/-- Modelled from the spec: `amplitude_at(index)` fails with `IndexError`
when the index is out of range. -/
def amplitude_at (v : StateVector K) (i : ℕ) : Except ErrKind (Cplx K) :=
  if h : i < v.amps.length then .ok (v.amps.get ⟨i, h⟩) else .error .IndexError

/-- The basis-ket amplitude list: 1 at index `i`, 0 elsewhere. -/
def onehot (len i : ℕ) : List (Cplx K) :=
  (List.range len).map (fun j => if j = i then 1 else 0)

/-- Modelled from the spec: `collapse_to(index)` returns a new StateVector
with amplitude 1 at `index` and 0 elsewhere; the pre-collapse phase at
`index` is discarded. -/
def collapse_to (v : StateVector K) (i : ℕ) : Except ErrKind (StateVector K) :=
  if i < v.amps.length then .ok ⟨onehot v.amps.length i⟩ else .error .IndexError

/-- Modelled from the spec: `probabilities(state)` is the ordered sequence
`p_i = |amplitude_at(i)|^2`; total, no failure on unnormalized vectors. -/
def probabilities (v : StateVector K) : List K := v.amps.map Cplx.normSq

/-- MSB-first fixed-width binary digits: `bitChars n i` is the `n`-bit
binary representation of `i`. -/
def bitChars : ℕ → ℕ → List Char
  | 0, _ => []
  | n + 1, i => bitChars n (i / 2) ++ [if i % 2 = 1 then '1' else '0']

/-- Modelled from the spec: the basis-state label for index `i` on `n`
qubits, the `n`-bit MSB-first binary string. -/
def labelOf (n i : ℕ) : String := String.mk (bitChars n i)

/-- Modelled from the spec: `probabilities_as_labels(state)` maps the
`n`-bit binary label of each index to its probability. -/
def probabilities_as_labels (v : StateVector K) : List (String × K) :=
  (List.range v.amps.length).map
    (fun i => (labelOf (Nat.log2 v.amps.length) i, Cplx.normSq (v.amps.getD i 0)))

/-- Modelled from the spec: an explicitly passed uniform random source;
`stream` lists the successive uniform draws and `idx` is the current
position, so sampling is fully deterministic given the source's state. -/
structure Rng (K : Type) where
  stream : ℕ → K
  idx : ℕ

/-- Draw the next uniform value and advance the source. -/
def Rng.next (r : Rng K) : K × Rng K := (r.stream r.idx, ⟨r.stream, r.idx + 1⟩)

/-- Modelled from the spec: inverse-CDF selection of the smallest index `k`
with `u < p_0 + ... + p_k`; per the spec's numeric semantics the final
cumulative value is treated as the upper bound, so a draw past the last
boundary selects the last index. -/
def selectIndex : List K → K → ℕ
  | [], _ => 0
  | [_], _ => 0
  | p :: q :: ps, u => if u < p then 0 else selectIndex (q :: ps) (u - p) + 1

/-- Cumulative probability `c_j = p_0 + ... + p_j`. -/
def cumul (ps : List K) (j : ℕ) : K := (ps.take (j + 1)).sum

/-- Modelled from the spec: `measure_once(state, rng)` fails with
`InvalidStateError` on an invalid state; otherwise draws `u`, selects the
smallest index whose cumulative probability exceeds `u`, and returns that
index's label together with the collapsed state. -/
def measure_once (tol : K) (v : StateVector K) (r : Rng K) :
    Except ErrKind (String × StateVector K) :=
  if is_valid tol v then
    let u := (r.next).1
    let k := selectIndex (probabilities v) u
    match collapse_to v k with
    | .ok c => .ok (labelOf (Nat.log2 v.amps.length) k, c)
    | .error e => .error e
  else .error .InvalidStateError

/-- The label of one inverse-CDF draw with value `u` against `state`. -/
def drawLabel (v : StateVector K) (u : K) : String :=
  labelOf (Nat.log2 v.amps.length) (selectIndex (probabilities v) u)

/-- The labels of `shots` successive draws, every draw taken against the
same unmutated `state`. -/
def shotLabels (v : StateVector K) : ℕ → Rng K → List String
  | 0, _ => []
  | n + 1, r => drawLabel v (r.next).1 :: shotLabels v n (r.next).2

/-- Occurrence counts of a list of labels: each distinct label paired with
the number of times it occurs. -/
def countsList (ls : List String) : List (String × ℕ) :=
  ls.dedup.map (fun s => (s, ls.count s))

/-- Modelled from the spec: `sample_counts(state, shots, rng)` fails with
`InvalidStateError` on an invalid state and with `ArgumentError` on a
negative shot count; otherwise repeats the single-shot draw `shots` times
without mutating `state` and returns the positive occurrence counts. -/
def sample_counts (tol : K) (v : StateVector K) (shots : ℤ) (r : Rng K) :
    Except ErrKind (List (String × ℕ)) :=
  if is_valid tol v then
    if shots < 0 then .error .ArgumentError
    else .ok (countsList (shotLabels v shots.toNat r))
  else .error .InvalidStateError

/-- Magnitude of a real-coefficient complex amplitude. -/
noncomputable def Cabs (z : Cplx ℝ) : ℝ := Real.sqrt z.normSq

/-- Modelled from the spec: the first index where the amplitude magnitude
exceeds the tolerance. -/
noncomputable def firstSignificant (tol : ℝ) : List (Cplx ℝ) → Option ℕ
  | [] => none
  | z :: zs => if tol < Cabs z then some 0 else (firstSignificant tol zs).map (· + 1)

/-- Modelled from the spec: the unit-magnitude phase factor of a nonzero
complex number (a zero argument, which the spec leaves unspecified, maps to
the neutral phase 1). -/
noncomputable def phaseRatio (z : Cplx ℝ) : Cplx ℝ :=
  if z = 0 then 1 else ⟨z.re / Cabs z, z.im / Cabs z⟩

/-- Modelled from the spec: the phase factor aligning `a` with `b`, computed
from the amplitude ratio at the first index of `a` whose magnitude exceeds
the tolerance (neutral when no index does). -/
noncomputable def alignPhase (tol : ℝ) (a b : List (Cplx ℝ)) : Cplx ℝ :=
  match firstSignificant tol a with
  | some k => phaseRatio (Cplx.div (b.getD k 0) (a.getD k 0))
  | none => 1

/-- Modelled from the spec: the element-wise comparison of `b` against `a`
multiplied by the chosen phase ratio, each magnitude difference checked
against the tolerance. -/
noncomputable def amplitudesClose (tol : ℝ) (ratio : Cplx ℝ) (a b : List (Cplx ℝ)) : Bool :=
  (a.zip b).all (fun zw => decide (Cabs (zw.2 - ratio * zw.1) ≤ tol))

/-- Modelled from the spec: `equivalent(a, b, tolerance)` fails with
`DimensionError` when the qubit counts differ; otherwise multiplies `a` by
the phase ratio taken at its first significant index and compares the
element-wise magnitude differences against the tolerance. -/
noncomputable def equivalent (tol : ℝ) (a b : StateVector ℝ) : Except ErrKind Bool := do
  let na ← num_qubits a
  let nb ← num_qubits b
  if na ≠ nb then .error .DimensionError
  else .ok (amplitudesClose tol (alignPhase tol a.amps b.amps) a.amps b.amps)

@[simp] theorem selectIndex_nil (u : K) : selectIndex [] u = 0 := rfl

@[simp] theorem selectIndex_singleton (p u : K) : selectIndex [p] u = 0 := rfl

theorem selectIndex_cons_cons (p q : K) (ps : List K) (u : K) :
    selectIndex (p :: q :: ps) u =
      if u < p then 0 else selectIndex (q :: ps) (u - p) + 1 := rfl

@[simp] theorem cumul_cons_zero (p : K) (ps : List K) : cumul (p :: ps) 0 = p := by
  simp [cumul]

@[simp] theorem cumul_cons_succ (p : K) (ps : List K) (j : ℕ) :
    cumul (p :: ps) (j + 1) = p + cumul ps j := by
  simp [cumul]

theorem selectIndex_lt_length :
    ∀ (ps : List K), ps ≠ [] → ∀ u : K, selectIndex ps u < ps.length
  | [], h, _ => absurd rfl h
  | [_], _, _ => by simp
  | p :: q :: ps, _, u => by
    rw [selectIndex_cons_cons]
    split
    · simp
    · have := selectIndex_lt_length (q :: ps) (by simp) (u - p)
      simp only [List.length_cons] at this ⊢
      omega

theorem cumul_le_of_lt_selectIndex :
    ∀ (ps : List K) (u : K) (j : ℕ), j < selectIndex ps u → cumul ps j ≤ u
  | [], u, j, h => by simp at h
  | [_], u, j, h => by simp at h
  | p :: q :: ps, u, j, h => by
    rw [selectIndex_cons_cons] at h
    by_cases hp : u < p
    · rw [if_pos hp] at h
      omega
    · rw [if_neg hp] at h
      match j with
      | 0 => simpa using not_lt.mp hp
      | j' + 1 =>
        have hj : j' < selectIndex (q :: ps) (u - p) := by omega
        have := cumul_le_of_lt_selectIndex (q :: ps) (u - p) j' hj
        rw [cumul_cons_succ]
        linarith

theorem selectIndex_le_of_lt_cumul (ps : List K) (u : K) (j : ℕ)
    (h : u < cumul ps j) : selectIndex ps u ≤ j := by
  by_contra hlt
  exact absurd h (not_lt.mpr (cumul_le_of_lt_selectIndex ps u j (by omega)))

theorem lt_cumul_selectIndex :
    ∀ (ps : List K) (u : K), u < ps.sum → u < cumul ps (selectIndex ps u)
  | [], u, h => by simpa [cumul] using h
  | [p], u, h => by simpa [cumul] using h
  | p :: q :: ps, u, h => by
    rw [selectIndex_cons_cons]
    by_cases hp : u < p
    · rw [if_pos hp]
      simpa using hp
    · rw [if_neg hp]
      have h' : u - p < (q :: ps).sum := by
        rw [List.sum_cons] at h
        linarith
      have := lt_cumul_selectIndex (q :: ps) (u - p) h'
      rw [cumul_cons_succ]
      linarith

theorem selectIndex_eq_last :
    ∀ (ps : List K) (u : K), (∀ p ∈ ps, 0 ≤ p) → ps.sum ≤ u →
      selectIndex ps u = ps.length - 1
  | [], _, _, _ => rfl
  | [p], u, _, _ => by simp
  | p :: q :: ps, u, hpos, h => by
    have hq : 0 ≤ (q :: ps).sum :=
      List.sum_nonneg fun x hx => hpos x (List.mem_cons_of_mem _ hx)
    rw [List.sum_cons] at h
    have hp : ¬ u < p := not_lt.mpr (by linarith)
    rw [selectIndex_cons_cons, if_neg hp]
    have := selectIndex_eq_last (q :: ps) (u - p)
      (fun x hx => hpos x (List.mem_cons_of_mem _ hx)) (by linarith)
    simp only [List.length_cons] at this ⊢
    omega

theorem probabilities_nonneg (v : StateVector K) : ∀ p ∈ probabilities v, 0 ≤ p := by
  intro p hp
  obtain ⟨z, _, rfl⟩ := List.mem_map.mp hp
  exact Cplx.normSq_nonneg z

@[simp] theorem probabilities_length (v : StateVector K) :
    (probabilities v).length = v.amps.length := List.length_map _ _

theorem log2_two_pow (k : ℕ) : Nat.log2 (2 ^ k) = k := by
  rw [Nat.log2_eq_log_two, Nat.log_pow one_lt_two]

theorem measure_once_valid_eq (tol : K) (v : StateVector K) (r : Rng K)
    (hval : is_valid tol v = true) (hne : v.amps ≠ []) :
    measure_once tol v r
      = .ok (labelOf (Nat.log2 v.amps.length)
              (selectIndex (probabilities v) (r.stream r.idx)),
            ⟨onehot v.amps.length (selectIndex (probabilities v) (r.stream r.idx))⟩) := by
  have hk : selectIndex (probabilities v) (r.stream r.idx) < v.amps.length := by
    have h1 : probabilities v ≠ [] := by
      simpa [probabilities] using hne
    have := selectIndex_lt_length (probabilities v) h1 (r.stream r.idx)
    simpa using this
  simp [measure_once, hval, Rng.next, collapse_to, hk]

/-- C1: on a valid StateVector, `measure_once` succeeds and selects the
smallest index whose cumulative probability exceeds the uniform draw
(clamping to the last index when the draw lands past the final cumulative
value, per the spec's numeric semantics), returning its MSB-first label
together with the collapsed StateVector holding exactly `1+0j` at that index
and `0` elsewhere; on an invalid StateVector it fails with
`InvalidStateError`. -/
theorem measure_once_spec (K : Type) [LinearOrderedField K] (n : ℕ) (tol : K)
    (v : StateVector K) (r : Rng K) (hn : v.amps.length = 2 ^ n)
    (hu0 : 0 ≤ r.stream r.idx) (hu1 : r.stream r.idx < 1) :
    (is_valid tol v = false → measure_once tol v r = .error .InvalidStateError) ∧
    (is_valid tol v = true →
      measure_once tol v r
        = .ok (labelOf n (selectIndex (probabilities v) (r.stream r.idx)),
            ⟨onehot (2 ^ n) (selectIndex (probabilities v) (r.stream r.idx))⟩) ∧
      (∀ j, r.stream r.idx < cumul (probabilities v) j →
          selectIndex (probabilities v) (r.stream r.idx) ≤ j) ∧
      (r.stream r.idx < (probabilities v).sum →
          r.stream r.idx < cumul (probabilities v)
            (selectIndex (probabilities v) (r.stream r.idx))) ∧
      ((probabilities v).sum ≤ r.stream r.idx →
          selectIndex (probabilities v) (r.stream r.idx) = 2 ^ n - 1)) := by
  constructor
  · intro h
    simp [measure_once, h]
  · intro hval
    have hne : v.amps ≠ [] := by
      intro hnil
      rw [hnil] at hn
      exact (pow_pos (by norm_num : (0:ℕ) < 2) n).ne' hn.symm
    refine ⟨?_, ?_, ?_, ?_⟩
    · rw [measure_once_valid_eq tol v r hval hne, hn, log2_two_pow]
    · intro j hj
      exact selectIndex_le_of_lt_cumul _ _ _ hj
    · intro hu
      exact lt_cumul_selectIndex _ _ hu
    · intro hu
      have := selectIndex_eq_last (probabilities v) (r.stream r.idx)
        (probabilities_nonneg v) hu
      rwa [probabilities_length, hn] at this

/-- Concrete instantiation of `measure_once_spec` discharging its
hypotheses: measuring the valid rational state `[1, 0]` with draw `0`
selects index 0 and collapses to the basis ket. -/
theorem measure_once_spec_witness :
    measure_once (0 : ℚ) ⟨[⟨1, 0⟩, ⟨0, 0⟩]⟩ ⟨fun _ => 0, 0⟩
      = .ok ("0", ⟨onehot 2 0⟩) := by
  have h := ((measure_once_spec ℚ 1 0 ⟨[⟨1, 0⟩, ⟨0, 0⟩]⟩ ⟨fun _ => 0, 0⟩
      (by norm_num) (le_refl 0) (by norm_num)).2
    (by simp [is_valid, sumNormSq, Cplx.normSq])).1
  rw [h]
  norm_num [probabilities, Cplx.normSq, selectIndex_cons_cons]
  rfl

theorem bitChars_length : ∀ (n i : ℕ), (bitChars n i).length = n
  | 0, _ => rfl
  | n + 1, i => by
    rw [bitChars]
    simp [bitChars_length n (i / 2)]

theorem labelOf_length (n i : ℕ) : (labelOf n i).length = n := by
  rw [labelOf]
  show (bitChars n i).length = n
  exact bitChars_length n i

@[simp] theorem onehot_length (len i : ℕ) : (onehot (K := K) len i).length = len := by
  simp [onehot]

theorem onehot_shape : ∀ (i len : ℕ), i < len →
    onehot (K := K) len i = List.replicate i 0 ++ 1 :: List.replicate (len - (i + 1)) 0
  | 0, 0, h => absurd h (lt_irrefl 0)
  | 0, l + 1, _ => by
    rw [onehot, List.range_succ_eq_map, List.map_cons, List.map_map]
    have h1 : ((fun j => if j = 0 then (1 : Cplx K) else 0) ∘ Nat.succ)
        = fun _ => (0 : Cplx K) := by
      funext x
      simp
    rw [h1, List.map_const', List.length_range]
    simp
  | i + 1, l + 1, h => by
    rw [onehot, List.range_succ_eq_map, List.map_cons, List.map_map]
    have h1 : ((fun j => if j = i + 1 then (1 : Cplx K) else 0) ∘ Nat.succ)
        = fun j => if j = i then (1 : Cplx K) else 0 := by
      funext x
      simp
    have h2 : (List.range l).map (fun j => if j = i then (1 : Cplx K) else 0)
        = onehot l i := rfl
    rw [h1, h2, onehot_shape i l (by omega)]
    simp only [List.replicate_succ, List.cons_append]
    have h3 : l + 1 - (i + 1 + 1) = l - (i + 1) := by omega
    simp [h3]

theorem map_normSq_shape (k m : ℕ) :
    (List.replicate k (0 : Cplx K) ++ 1 :: List.replicate m 0).map Cplx.normSq
      = List.replicate k (0 : K) ++ 1 :: List.replicate m 0 := by
  simp [List.map_replicate, Cplx.normSq]

theorem selectIndex_replicate :
    ∀ (k m : ℕ) (u : K), 0 ≤ u → u < 1 →
      selectIndex (List.replicate k (0 : K) ++ 1 :: List.replicate m 0) u = k
  | 0, 0, u, _, _ => by simp
  | 0, m + 1, u, _, h1 => by
    simp [List.replicate_succ, selectIndex_cons_cons, h1]
  | k + 1, m, u, h0, h1 => by
    rw [List.replicate_succ, List.cons_append]
    obtain ⟨q, t, ht⟩ : ∃ q t, List.replicate k (0 : K) ++ 1 :: List.replicate m 0 = q :: t := by
      match k with
      | 0 => exact ⟨1, List.replicate m 0, by simp⟩
      | k' + 1 =>
        exact ⟨0, List.replicate k' 0 ++ 1 :: List.replicate m 0, by
          simp [List.replicate_succ]⟩
    rw [ht, selectIndex_cons_cons, if_neg (not_lt.mpr h0), ← ht, sub_zero,
      selectIndex_replicate k m u h0 h1]

theorem sumNormSq_onehot (len i : ℕ) (h : i < len) :
    sumNormSq (⟨onehot len i⟩ : StateVector K) = 1 := by
  show ((onehot len i).map Cplx.normSq).sum = 1
  rw [onehot_shape i len h, map_normSq_shape]
  simp

theorem countsList_pos (ls : List String) : ∀ p ∈ countsList ls, 0 < p.2 := by
  intro p hp
  obtain ⟨s, hs, rfl⟩ := List.mem_map.mp hp
  exact List.count_pos_iff.mpr (List.mem_dedup.mp hs)

theorem countsList_sum (ls : List String) :
    ((countsList ls).map Prod.snd).sum = ls.length := by
  rw [countsList, List.map_map]
  exact List.sum_map_count_dedup_eq_length ls

theorem countsList_mem_label (ls : List String) :
    ∀ p ∈ countsList ls, p.1 ∈ ls := by
  intro p hp
  obtain ⟨s, hs, rfl⟩ := List.mem_map.mp hp
  exact List.mem_dedup.mp hs

theorem shotLabels_length (v : StateVector K) :
    ∀ (cnt : ℕ) (r : Rng K), (shotLabels v cnt r).length = cnt
  | 0, _ => rfl
  | cnt + 1, r => by
    rw [shotLabels]
    simp [shotLabels_length v cnt]

theorem shotLabels_getD (v : StateVector K) :
    ∀ (cnt : ℕ) (r : Rng K) (i : ℕ), i < cnt →
      (shotLabels v cnt r).getD i "" = drawLabel v (r.stream (r.idx + i))
  | 0, _, _, h => absurd h (Nat.not_lt_zero _)
  | cnt + 1, r, 0, _ => by
    rw [shotLabels]
    simp [Rng.next]
  | cnt + 1, r, i + 1, h => by
    rw [shotLabels]
    rw [List.getD_cons_succ]
    rw [shotLabels_getD v cnt (r.next).2 i (by omega)]
    have harg : (r.next).2.stream ((r.next).2.idx + i) = r.stream (r.idx + (i + 1)) := by
      show r.stream (r.idx + 1 + i) = r.stream (r.idx + (i + 1))
      have h2 : r.idx + 1 + i = r.idx + (i + 1) := by omega
      rw [h2]
    rw [harg]

theorem shotLabels_mem (v : StateVector K) :
    ∀ (cnt : ℕ) (r : Rng K) (s : String), s ∈ shotLabels v cnt r →
      ∃ i, s = labelOf (Nat.log2 v.amps.length) i
  | 0, _, _, h => by simp [shotLabels] at h
  | cnt + 1, r, s, h => by
    rw [shotLabels] at h
    rcases List.mem_cons.mp h with h1 | h1
    · exact ⟨_, h1⟩
    · exact shotLabels_mem v cnt (r.next).2 s h1

/-- C2: `sample_counts` fails with `InvalidStateError` on an invalid state
and with `ArgumentError` on a negative shot count; otherwise it performs
`shots` independent draws, each taken by `measure_once` against the same
unmutated input state, and returns a mapping whose entries all have positive
count and whose counts sum to exactly `shots`. -/
theorem sample_counts_spec (K : Type) [LinearOrderedField K] (n : ℕ) (tol : K)
    (v : StateVector K) (shots : ℤ) (r : Rng K) (hn : v.amps.length = 2 ^ n) :
    (is_valid tol v = false →
      sample_counts tol v shots r = .error .InvalidStateError) ∧
    (is_valid tol v = true → shots < 0 →
      sample_counts tol v shots r = .error .ArgumentError) ∧
    (is_valid tol v = true → 0 ≤ shots →
      ∃ m, sample_counts tol v shots r = .ok m ∧
        (∀ p ∈ m, 0 < p.2) ∧
        ((m.map Prod.snd).sum : ℤ) = shots ∧
        ∀ i, i < shots.toNat →
          ∃ c, measure_once tol v ⟨r.stream, r.idx + i⟩
            = .ok ((shotLabels v shots.toNat r).getD i "", c)) := by
  refine ⟨?_, ?_, ?_⟩
  · intro h
    simp [sample_counts, h]
  · intro hval hs
    simp [sample_counts, hval, hs]
  · intro hval hs
    have hne : v.amps ≠ [] := by
      intro hnil
      rw [hnil] at hn
      exact (pow_pos (by norm_num : (0:ℕ) < 2) n).ne' hn.symm
    refine ⟨countsList (shotLabels v shots.toNat r), ?_, countsList_pos _, ?_, ?_⟩
    · simp [sample_counts, hval, not_lt.mpr hs]
    · rw [countsList_sum, shotLabels_length, Int.toNat_of_nonneg hs]
    · intro i hi
      refine ⟨⟨onehot v.amps.length
        (selectIndex (probabilities v) (r.stream (r.idx + i)))⟩, ?_⟩
      rw [measure_once_valid_eq tol v ⟨r.stream, r.idx + i⟩ hval hne,
        shotLabels_getD v shots.toNat r i hi]
      rfl

/-- Concrete instantiation of `sample_counts_spec` discharging its
hypotheses: two shots on the valid rational state `[1, 0]`. -/
theorem sample_counts_spec_witness :
    ∃ m, sample_counts (0 : ℚ) ⟨[⟨1, 0⟩, ⟨0, 0⟩]⟩ 2 ⟨fun _ => 0, 0⟩ = .ok m ∧
      (∀ p ∈ m, 0 < p.2) ∧
      ((m.map Prod.snd).sum : ℤ) = 2 ∧
      ∀ i, i < (2 : ℤ).toNat →
        ∃ c, measure_once (0 : ℚ) ⟨[⟨1, 0⟩, ⟨0, 0⟩]⟩ ⟨fun _ => (0 : ℚ), 0 + i⟩
          = .ok ((shotLabels (⟨[⟨1, 0⟩, ⟨0, 0⟩]⟩ : StateVector ℚ) (2 : ℤ).toNat
              ⟨fun _ => 0, 0⟩).getD i "", c) :=
  (sample_counts_spec ℚ 1 0 ⟨[⟨1, 0⟩, ⟨0, 0⟩]⟩ 2 ⟨fun _ => 0, 0⟩
    (by norm_num)).2.2 (by simp [is_valid, sumNormSq, Cplx.normSq]) (by norm_num)

/-- C10: on a valid StateVector over `n` qubits, the label returned by
`measure_once` has exactly `n` characters (as do all keys returned by
`sample_counts`), the collapsed StateVector is exactly normalized and hence
valid, and measuring the collapsed state again returns the same label and
state for every uniform draw. -/
theorem measure_invariants (K : Type) [LinearOrderedField K] (n : ℕ) (tol : K)
    (v : StateVector K) (r : Rng K) (shots : ℤ) (r2 : Rng K)
    (hn : v.amps.length = 2 ^ n) (htol : 0 ≤ tol)
    (hval : is_valid tol v = true) :
    (∃ l c, measure_once tol v r = .ok (l, c) ∧ l.length = n ∧
      sumNormSq c = 1 ∧ is_valid tol c = true ∧
      (∀ r' : Rng K, 0 ≤ r'.stream r'.idx → r'.stream r'.idx < 1 →
        measure_once tol c r' = .ok (l, c))) ∧
    (∀ m, sample_counts tol v shots r2 = .ok m → ∀ p ∈ m, p.1.length = n) := by
  have hne : v.amps ≠ [] := by
    intro hnil
    rw [hnil] at hn
    exact (pow_pos (by norm_num : (0:ℕ) < 2) n).ne' hn.symm
  constructor
  · set k := selectIndex (probabilities v) (r.stream r.idx) with hk
    have hklt : k < v.amps.length := by
      have h1 : probabilities v ≠ [] := by simpa [probabilities] using hne
      have := selectIndex_lt_length (probabilities v) h1 (r.stream r.idx)
      simpa using this
    have hklt2 : k < 2 ^ n := hn ▸ hklt
    refine ⟨labelOf n k, ⟨onehot (2 ^ n) k⟩, ?_, labelOf_length n k, ?_, ?_, ?_⟩
    · rw [measure_once_valid_eq tol v r hval hne, hn, log2_two_pow]
    · exact sumNormSq_onehot _ _ hklt2
    · simp [is_valid, sumNormSq_onehot _ _ hklt2, htol]
    · intro r' h0 h1
      have hcval : is_valid tol (⟨onehot (2 ^ n) k⟩ : StateVector K) = true := by
        simp [is_valid, sumNormSq_onehot _ _ hklt2, htol]
      have hcne : (onehot (2 ^ n) k : List (Cplx K)) ≠ [] := by
        intro hnil
        have := congrArg List.length hnil
        rw [onehot_length] at this
        exact (pow_pos (by norm_num : (0:ℕ) < 2) n).ne' this
      rw [measure_once_valid_eq tol ⟨onehot (2 ^ n) k⟩ r' hcval hcne]
      have hsel : selectIndex (probabilities (⟨onehot (2 ^ n) k⟩ : StateVector K))
          (r'.stream r'.idx) = k := by
        show selectIndex ((onehot (2 ^ n) k : List (Cplx K)).map Cplx.normSq) _ = k
        rw [onehot_shape k _ hklt2, map_normSq_shape]
        exact selectIndex_replicate _ _ _ h0 h1
      simp only [hsel, onehot_length, log2_two_pow]
  · intro m hm p hp
    by_cases hs : shots < 0
    · simp [sample_counts, hval, hs] at hm
    · have hm2 : m = countsList (shotLabels v shots.toNat r2) := by
        simp [sample_counts, hval, hs] at hm
        exact hm.symm
      subst hm2
      obtain ⟨i, hi⟩ := shotLabels_mem v shots.toNat r2 p.1 (countsList_mem_label _ p hp)
      rw [hi, labelOf_length, hn, log2_two_pow]

/-- Concrete instantiation of `measure_invariants` discharging its
hypotheses on the valid rational state `[1, 0]`. -/
theorem measure_invariants_witness :
    ∃ l c, measure_once (0 : ℚ) ⟨[⟨1, 0⟩, ⟨0, 0⟩]⟩ ⟨fun _ => 0, 0⟩ = .ok (l, c) ∧
      l.length = 1 ∧ sumNormSq c = 1 ∧ is_valid (0 : ℚ) c = true ∧
      (∀ r' : Rng ℚ, 0 ≤ r'.stream r'.idx → r'.stream r'.idx < 1 →
        measure_once (0 : ℚ) c r' = .ok (l, c)) :=
  (measure_invariants ℚ 1 0 ⟨[⟨1, 0⟩, ⟨0, 0⟩]⟩ ⟨fun _ => 0, 0⟩ 0 ⟨fun _ => 0, 0⟩
    (by norm_num) le_rfl (by simp [is_valid, sumNormSq, Cplx.normSq])).1

/-- C4: `is_valid(tolerance)` returns true iff the squared-magnitude sum is
within `tolerance` of 1; the state `[0.5, 3j]` has squared-magnitude sum
`9.25` and is invalid at the default tolerance, while `[1/sqrt 2, 1/sqrt 2]`
is valid. -/
theorem is_valid_spec :
    (∀ (K : Type) [LinearOrderedField K] (tol : K) (v : StateVector K),
      is_valid tol v = true ↔ |sumNormSq v - 1| ≤ tol) ∧
    sumNormSq (⟨[⟨1/2, 0⟩, ⟨0, 3⟩]⟩ : StateVector ℚ) = 37/4 ∧
    is_valid ((1 : ℚ)/100000000) ⟨[⟨1/2, 0⟩, ⟨0, 3⟩]⟩ = false ∧
    is_valid ((1 : ℝ)/100000000)
      ⟨[⟨1/Real.sqrt 2, 0⟩, ⟨1/Real.sqrt 2, 0⟩]⟩ = true := by
  refine ⟨?_, ?_, ?_, ?_⟩
  · intro K _ tol v
    simp [is_valid]
  · norm_num [sumNormSq, Cplx.normSq]
  · simp only [is_valid, decide_eq_false_iff_not, not_le]
    have hs : sumNormSq (⟨[⟨1/2, 0⟩, ⟨0, 3⟩]⟩ : StateVector ℚ) = 37/4 := by
      norm_num [sumNormSq, Cplx.normSq]
    rw [hs, show (37:ℚ)/4 - 1 = 33/4 by norm_num,
      abs_of_nonneg (by norm_num : (0:ℚ) ≤ 33/4)]
    norm_num
  · have h2 : Real.sqrt 2 * Real.sqrt 2 = 2 := Real.mul_self_sqrt (by norm_num)
    have hinv : (Real.sqrt 2)⁻¹ * (Real.sqrt 2)⁻¹ = (2:ℝ)⁻¹ := by
      rw [← mul_inv, h2]
    simp only [is_valid, decide_eq_true_eq]
    have hs : sumNormSq
        (⟨[⟨1/Real.sqrt 2, 0⟩, ⟨1/Real.sqrt 2, 0⟩]⟩ : StateVector ℝ) = 1 := by
      simp [sumNormSq, Cplx.normSq, one_div, hinv]
      norm_num
    rw [hs]
    norm_num

/-- Concrete instantiation of `is_valid_spec`: the state `[0.5, 3j]` is
accepted once the tolerance is at least `33/4`. -/
theorem is_valid_spec_witness :
    is_valid (9 : ℚ) ⟨[⟨1/2, 0⟩, ⟨0, 3⟩]⟩ = true :=
  (is_valid_spec.1 ℚ 9 ⟨[⟨1/2, 0⟩, ⟨0, 3⟩]⟩).mpr
    (by norm_num [sumNormSq, Cplx.normSq, abs_le])

/-- C5: `construct` fails with `DimensionError` exactly when the amplitude
count is not a power of two, and otherwise succeeds with the given
amplitudes regardless of normalization. -/
theorem construct_spec (K : Type) [LinearOrderedField K] (amps : List (Cplx K)) :
    (construct amps = .error .DimensionError ↔ ¬∃ k, amps.length = 2 ^ k) ∧
    ((∃ k, amps.length = 2 ^ k) → construct amps = .ok ⟨amps⟩) := by
  have hsucc : (∃ k, amps.length = 2 ^ k) → construct amps = .ok ⟨amps⟩ := by
    intro hex
    simp [construct, (isPowTwo_iff amps.length).mpr hex]
  refine ⟨⟨?_, ?_⟩, hsucc⟩
  · intro h hex
    rw [hsucc hex] at h
    exact Except.noConfusion h
  · intro hex
    have hb : isPowTwo amps.length = false := by
      cases hb : isPowTwo amps.length
      · rfl
      · exact absurd ((isPowTwo_iff _).mp hb) hex
    simp [construct, hb]

/-- Concrete instantiation of `construct_spec`: an unnormalized length-2
amplitude sequence constructs successfully. -/
theorem construct_spec_witness :
    construct ([⟨2, 0⟩, ⟨0, 0⟩] : List (Cplx ℚ)) = .ok ⟨[⟨2, 0⟩, ⟨0, 0⟩]⟩ :=
  (construct_spec ℚ [⟨2, 0⟩, ⟨0, 0⟩]).2 ⟨1, by norm_num⟩

/-- C6: `probabilities` is a total pure function returning one squared
magnitude per amplitude, in index order. -/
theorem probabilities_spec (K : Type) [LinearOrderedField K] (v : StateVector K) :
    (probabilities v).length = v.amps.length ∧
    ∀ i : ℕ, (probabilities v)[i]? = (v.amps[i]?).map Cplx.normSq := by
  refine ⟨probabilities_length v, fun i => ?_⟩
  simp [probabilities]

/-- C7: when `is_valid` holds at tolerance `tol`, the probabilities sum to 1
within `tol`. -/
theorem probabilities_sum_one (K : Type) [LinearOrderedField K] (tol : K)
    (v : StateVector K) (h : is_valid tol v = true) :
    |(probabilities v).sum - 1| ≤ tol :=
  of_decide_eq_true h

/-- Concrete instantiation of `probabilities_sum_one` on the valid rational
state `[1, 0]`. -/
theorem probabilities_sum_one_witness :
    |(probabilities (⟨[⟨1, 0⟩, ⟨0, 0⟩]⟩ : StateVector ℚ)).sum - 1| ≤ (0 : ℚ) :=
  probabilities_sum_one ℚ 0 ⟨[⟨1, 0⟩, ⟨0, 0⟩]⟩
    (by simp [is_valid, sumNormSq, Cplx.normSq])

/-- C8: `probabilities_as_labels` pairs the `n`-bit MSB-first binary label
of each index with that index's probability; on `[1/sqrt 2, -1/sqrt 2]` it
yields exactly `{"0": 0.5, "1": 0.5}`. -/
theorem probabilities_as_labels_spec :
    (∀ (K : Type) [LinearOrderedField K] (n : ℕ) (v : StateVector K),
      v.amps.length = 2 ^ n → ∀ i, i < 2 ^ n →
        (probabilities_as_labels v).getD i ("", 0)
          = (labelOf n i, Cplx.normSq (v.amps.getD i 0))) ∧
    probabilities_as_labels
        (⟨[⟨1/Real.sqrt 2, 0⟩, ⟨-(1/Real.sqrt 2), 0⟩]⟩ : StateVector ℝ)
      = [("0", 1/2), ("1", 1/2)] := by
  constructor
  · intro K _ n v hn i hi
    rw [probabilities_as_labels, hn, log2_two_pow]
    rw [List.getD_eq_getElem?_getD, List.getElem?_map, List.getElem?_range hi]
    rfl
  · have h2 : Real.sqrt 2 * Real.sqrt 2 = 2 := Real.mul_self_sqrt (by norm_num)
    have key : (1/Real.sqrt 2) * (1/Real.sqrt 2) = 1/2 := by
      rw [div_mul_div_comm, one_mul, h2]
    have hlog : Nat.log2 2 = 1 := by
      have := log2_two_pow 1
      rwa [pow_one] at this
    have l0 : labelOf 1 0 = "0" := rfl
    have l1 : labelOf 1 1 = "1" := rfl
    rw [probabilities_as_labels]
    simp only [List.length_cons, List.length_nil, hlog]
    rw [show (0 : ℕ) + 1 + 1 = 2 from rfl, show List.range 2 = [0, 1] by rfl]
    simp only [List.map_cons, List.map_nil, List.getD_cons_zero, List.getD_cons_succ,
      Cplx.normSq, l0, l1]
    have hinv : (Real.sqrt 2)⁻¹ * (Real.sqrt 2)⁻¹ = (2:ℝ)⁻¹ := by
      rw [← mul_inv, h2]
    norm_num [one_div, hinv]

/-- Concrete instantiation of `probabilities_as_labels_spec` at index 0 of
the rational state `[1, 0]`. -/
theorem probabilities_as_labels_spec_witness :
    (probabilities_as_labels (⟨[⟨1, 0⟩, ⟨0, 0⟩]⟩ : StateVector ℚ)).getD 0 ("", 0)
      = (labelOf 1 0,
        Cplx.normSq ((⟨[⟨1, 0⟩, ⟨0, 0⟩]⟩ : StateVector ℚ).amps.getD 0 0)) :=
  probabilities_as_labels_spec.1 ℚ 1 ⟨[⟨1, 0⟩, ⟨0, 0⟩]⟩ (by norm_num) 0 (by norm_num)

/-- C9: every operation is deterministic in its inputs: equal StateVectors
and equal random-source states give equal results for `is_valid`,
`probabilities`, `measure_once` and `sample_counts`. -/
theorem operations_deterministic (K : Type) [LinearOrderedField K] (tol : K)
    (v₁ v₂ : StateVector K) (r₁ r₂ : Rng K) (shots : ℤ)
    (hv : v₁ = v₂) (hr : r₁ = r₂) :
    is_valid tol v₁ = is_valid tol v₂ ∧
    probabilities v₁ = probabilities v₂ ∧
    measure_once tol v₁ r₁ = measure_once tol v₂ r₂ ∧
    sample_counts tol v₁ shots r₁ = sample_counts tol v₂ shots r₂ := by
  subst hv
  subst hr
  exact ⟨rfl, rfl, rfl, rfl⟩

/-- Concrete instantiation of `operations_deterministic` on the rational
state `[1, 0]` with a constant random source. -/
theorem operations_deterministic_witness :
    is_valid (0 : ℚ) ⟨[⟨1, 0⟩, ⟨0, 0⟩]⟩ = is_valid (0 : ℚ) ⟨[⟨1, 0⟩, ⟨0, 0⟩]⟩ :=
  (operations_deterministic ℚ 0 ⟨[⟨1, 0⟩, ⟨0, 0⟩]⟩ ⟨[⟨1, 0⟩, ⟨0, 0⟩]⟩
    ⟨fun _ => 0, 0⟩ ⟨fun _ => 0, 0⟩ 0 rfl rfl).1

theorem Cabs_nonneg (z : Cplx ℝ) : 0 ≤ Cabs z := Real.sqrt_nonneg _

theorem Cabs_zero : Cabs 0 = 0 := by simp [Cabs]

theorem Cabs_one : Cabs 1 = 1 := by simp [Cabs]

theorem Cabs_eq_zero_iff (z : Cplx ℝ) : Cabs z = 0 ↔ z = 0 := by
  rw [Cabs, Real.sqrt_eq_zero (Cplx.normSq_nonneg z)]
  exact Cplx.normSq_eq_zero_iff z

theorem Cabs_mul (z w : Cplx ℝ) : Cabs (z * w) = Cabs z * Cabs w := by
  rw [Cabs, Cplx.normSq_mul, Real.sqrt_mul (Cplx.normSq_nonneg z)]
  rfl

theorem Cabs_mul_self (z : Cplx ℝ) : Cabs z * Cabs z = z.normSq :=
  Real.mul_self_sqrt (Cplx.normSq_nonneg z)

theorem normSq_eq_one_of_Cabs (z : Cplx ℝ) (h : Cabs z = 1) : z.normSq = 1 := by
  rw [← Cabs_mul_self z, h]
  norm_num

theorem ne_zero_of_Cabs_one {z : Cplx ℝ} (h : Cabs z = 1) : z ≠ 0 := by
  intro h0
  rw [h0, Cabs_zero] at h
  exact zero_ne_one h

theorem normSq_ne_zero_of_sig {tol : ℝ} {z : Cplx ℝ} (htol : 0 ≤ tol)
    (h : tol < Cabs z) : z.normSq ≠ 0 := by
  intro h0
  have hpos : 0 < Cabs z := lt_of_le_of_lt htol h
  rw [Cabs, h0, Real.sqrt_zero] at hpos
  exact lt_irrefl 0 hpos

theorem Cabs_phaseRatio (z : Cplx ℝ) : Cabs (phaseRatio z) = 1 := by
  by_cases hz : z = 0
  · rw [phaseRatio, if_pos hz]
    exact Cabs_one
  · rw [phaseRatio, if_neg hz]
    have hn : z.normSq ≠ 0 := fun h0 => hz ((Cplx.normSq_eq_zero_iff z).mp h0)
    have hsq : (⟨z.re / Cabs z, z.im / Cabs z⟩ : Cplx ℝ).normSq = 1 := by
      show z.re / Cabs z * (z.re / Cabs z) + z.im / Cabs z * (z.im / Cabs z) = 1
      rw [div_mul_div_comm, div_mul_div_comm, Cabs_mul_self, div_add_div_same]
      exact div_self hn
    rw [Cabs, hsq, Real.sqrt_one]

theorem phaseRatio_eq_self {c : Cplx ℝ} (hc : Cabs c = 1) : phaseRatio c = c := by
  rw [phaseRatio, if_neg (ne_zero_of_Cabs_one hc), hc]
  ext <;> simp

theorem phaseRatio_mul {c z : Cplx ℝ} (hc : Cabs c = 1) (hz : z ≠ 0) :
    phaseRatio (c * z) = c * phaseRatio z := by
  have hcz : c * z ≠ 0 := by
    intro h0
    have h1 : (c * z).normSq = 0 := by
      rw [h0]
      simp
    rw [Cplx.normSq_mul, normSq_eq_one_of_Cabs c hc, one_mul] at h1
    exact hz ((Cplx.normSq_eq_zero_iff z).mp h1)
  rw [phaseRatio, if_neg hcz, phaseRatio, if_neg hz]
  have habs : Cabs (c * z) = Cabs z := by
    rw [Cabs_mul, hc, one_mul]
  rw [habs]
  ext <;> simp <;> ring

theorem firstSignificant_spec (tol : ℝ) :
    ∀ (l : List (Cplx ℝ)) (k : ℕ), firstSignificant tol l = some k →
      k < l.length ∧ tol < Cabs (l.getD k 0)
  | [], k, h => by simp [firstSignificant] at h
  | z :: zs, k, h => by
    rw [firstSignificant] at h
    by_cases hz : tol < Cabs z
    · rw [if_pos hz] at h
      cases h
      exact ⟨by simp, by simpa using hz⟩
    · rw [if_neg hz] at h
      obtain ⟨k', hk', rfl⟩ := Option.map_eq_some'.mp h
      have ih := firstSignificant_spec tol zs k' hk'
      refine ⟨by simpa using Nat.succ_lt_succ ih.1, ?_⟩
      simpa using ih.2

theorem firstSignificant_map_mul {c : Cplx ℝ} (hc : Cabs c = 1) (tol : ℝ) :
    ∀ l : List (Cplx ℝ),
      firstSignificant tol (l.map (fun z => c * z)) = firstSignificant tol l
  | [] => rfl
  | z :: zs => by
    rw [List.map_cons, firstSignificant, firstSignificant]
    rw [Cabs_mul, hc, one_mul, firstSignificant_map_mul hc tol zs]

theorem amplitudesClose_iff (tol : ℝ) (ratio : Cplx ℝ) :
    ∀ (a b : List (Cplx ℝ)), a.length = b.length →
      (amplitudesClose tol ratio a b = true ↔
        ∀ i, i < a.length → Cabs (b.getD i 0 - ratio * a.getD i 0) ≤ tol)
  | [], [], _ => by simp [amplitudesClose]
  | [], _ :: _, h => by simp at h
  | _ :: _, [], h => by simp at h
  | z :: zs, w :: ws, h => by
    have ih := amplitudesClose_iff tol ratio zs ws (by simpa using h)
    simp only [amplitudesClose, List.zip_cons_cons, List.all_cons, Bool.and_eq_true,
      decide_eq_true_eq] at ih ⊢
    constructor
    · rintro ⟨h1, h2⟩ i hi
      match i with
      | 0 => simpa using h1
      | i' + 1 =>
        simp only [List.getD_cons_succ]
        exact ih.mp h2 i' (by simpa using hi)
    · intro hall
      refine ⟨by simpa using hall 0 (by simp), ih.mpr fun i hi => ?_⟩
      have := hall (i + 1) (by simpa using Nat.succ_lt_succ hi)
      simpa using this

theorem amplitudesClose_map_right {c : Cplx ℝ} (hc : Cabs c = 1) (tol : ℝ) (ratio : Cplx ℝ) :
    ∀ (a b : List (Cplx ℝ)),
      amplitudesClose tol (c * ratio) a (b.map (fun z => c * z))
        = amplitudesClose tol ratio a b
  | [], _ => rfl
  | _ :: _, [] => rfl
  | z :: zs, w :: ws => by
    simp only [amplitudesClose, List.map_cons, List.zip_cons_cons, List.all_cons]
    have hh : Cabs (c * w - c * ratio * z) = Cabs (w - ratio * z) := by
      rw [show c * w - c * ratio * z = c * (w - ratio * z) by ring, Cabs_mul, hc, one_mul]
    rw [hh]
    have ih := amplitudesClose_map_right hc tol ratio zs ws
    simp only [amplitudesClose] at ih
    rw [ih]

theorem amplitudesClose_map_left {c : Cplx ℝ} (hc : Cabs c = 1) (tol : ℝ) (ratio : Cplx ℝ) :
    ∀ (a b : List (Cplx ℝ)),
      amplitudesClose tol (c.conj * ratio) (a.map (fun z => c * z)) b
        = amplitudesClose tol ratio a b
  | [], _ => rfl
  | _ :: _, [] => rfl
  | z :: zs, w :: ws => by
    simp only [amplitudesClose, List.map_cons, List.zip_cons_cons, List.all_cons]
    have hcc : c.conj * c = 1 := Cplx.conj_mul_self_eq_one (normSq_eq_one_of_Cabs c hc)
    have hh : w - c.conj * ratio * (c * z) = w - ratio * z := by
      rw [show c.conj * ratio * (c * z) = c.conj * c * (ratio * z) by ring, hcc, one_mul]
    rw [hh]
    have ih := amplitudesClose_map_left hc tol ratio zs ws
    simp only [amplitudesClose] at ih
    rw [ih]

theorem amplitudesClose_self (tol : ℝ) (htol : 0 ≤ tol) :
    ∀ a : List (Cplx ℝ), amplitudesClose tol 1 a a = true
  | [] => rfl
  | z :: zs => by
    simp only [amplitudesClose, List.zip_cons_cons, List.all_cons, Bool.and_eq_true,
      decide_eq_true_eq]
    refine ⟨?_, ?_⟩
    · rw [one_mul, sub_self, Cabs_zero]
      exact htol
    · have ih := amplitudesClose_self tol htol zs
      simpa only [amplitudesClose] using ih

theorem Cabs_neg (z : Cplx ℝ) : Cabs (-z) = Cabs z := by
  rw [Cabs, Cplx.normSq_neg, Cabs]

theorem Cabs_conj (z : Cplx ℝ) : Cabs z.conj = Cabs z := by
  rw [Cabs, Cplx.normSq_conj, Cabs]

theorem phaseRatio_zero : phaseRatio 0 = 1 := by
  rw [phaseRatio, if_pos rfl]

theorem Cplx.div_eq_zero_iff_num {z w : Cplx K} (hw : w.normSq ≠ 0) :
    Cplx.div z w = 0 ↔ z = 0 := by
  constructor
  · intro h
    have h1 : (Cplx.div z w).normSq = 0 := by
      rw [h]
      simp
    rw [Cplx.normSq_div] at h1
    rcases div_eq_zero_iff.mp h1 with h2 | h2
    · exact (Cplx.normSq_eq_zero_iff z).mp h2
    · exact absurd h2 hw
  · intro h
    rw [h]
    ext <;> simp [Cplx.div]

theorem getD_map_mul (c : Cplx ℝ) (l : List (Cplx ℝ)) (k : ℕ) (hk : k < l.length) :
    (l.map (fun z => c * z)).getD k 0 = c * l.getD k 0 := by
  rw [List.getD_eq_getElem?_getD, List.getD_eq_getElem?_getD, List.getElem?_map,
    List.getElem?_eq_getElem hk]
  rfl

theorem Cabs_alignPhase (tol : ℝ) (a b : List (Cplx ℝ)) :
    Cabs (alignPhase tol a b) = 1 := by
  rw [alignPhase]
  cases hfs : firstSignificant tol a
  · exact Cabs_one
  · exact Cabs_phaseRatio _

theorem amplitudesClose_false_at (tol : ℝ) (ratio : Cplx ℝ) (a b : List (Cplx ℝ))
    (hlen : a.length = b.length) (k : ℕ) (hk : k < a.length)
    (h : tol < Cabs (b.getD k 0 - ratio * a.getD k 0)) :
    amplitudesClose tol ratio a b = false := by
  cases hcl : amplitudesClose tol ratio a b
  · rfl
  · exact absurd ((amplitudesClose_iff tol ratio a b hlen).mp hcl k hk) (not_le.mpr h)

theorem equivalent_eq (tol : ℝ) (a b : StateVector ℝ)
    (ha : isPowTwo a.amps.length = true) (hb : isPowTwo b.amps.length = true) :
    equivalent tol a b =
      if Nat.log2 a.amps.length ≠ Nat.log2 b.amps.length then .error .DimensionError
      else .ok (amplitudesClose tol (alignPhase tol a.amps b.amps) a.amps b.amps) := by
  rw [equivalent, num_qubits, num_qubits, if_pos ha, if_pos hb]
  rfl

theorem equivalent_map_right (m n : ℕ) (tol : ℝ) (a b : StateVector ℝ)
    (ha : a.amps.length = 2 ^ m) (hb : b.amps.length = 2 ^ n) (htol : 0 ≤ tol)
    {c : Cplx ℝ} (hc : Cabs c = 1) (k : ℕ)
    (hk : firstSignificant tol a.amps = some k) :
    equivalent tol a ⟨b.amps.map (fun z => c * z)⟩ = equivalent tol a b := by
  have hpa : isPowTwo a.amps.length = true := (isPowTwo_iff _).mpr ⟨m, ha⟩
  have hpb : isPowTwo b.amps.length = true := (isPowTwo_iff _).mpr ⟨n, hb⟩
  have hpb' : isPowTwo ((⟨b.amps.map (fun z => c * z)⟩ : StateVector ℝ).amps.length)
      = true := by
    show isPowTwo (b.amps.map (fun z => c * z)).length = true
    rw [List.length_map]
    exact hpb
  have hspec := firstSignificant_spec tol a.amps k hk
  have hklt := hspec.1
  have hsig := hspec.2
  have hnz : (a.amps.getD k 0).normSq ≠ 0 := normSq_ne_zero_of_sig htol hsig
  rw [equivalent_eq tol a ⟨b.amps.map (fun z => c * z)⟩ hpa hpb',
    equivalent_eq tol a b hpa hpb]
  have hlm : (⟨b.amps.map (fun z => c * z)⟩ : StateVector ℝ).amps.length
      = b.amps.length := List.length_map _ _
  rw [hlm]
  by_cases hcond : Nat.log2 a.amps.length ≠ Nat.log2 b.amps.length
  · rw [if_pos hcond, if_pos hcond]
  · rw [if_neg hcond, if_neg hcond]
    have hmn : m = n := by
      have h2 := not_not.mp hcond
      rwa [ha, hb, log2_two_pow, log2_two_pow] at h2
    have hlen : a.amps.length = b.amps.length := by
      rw [ha, hb, hmn]
    have hkb : k < b.amps.length := hlen ▸ hklt
    have hr1 : alignPhase tol a.amps (⟨b.amps.map (fun z => c * z)⟩ : StateVector ℝ).amps
        = phaseRatio (c * Cplx.div (b.amps.getD k 0) (a.amps.getD k 0)) := by
      show alignPhase tol a.amps (b.amps.map (fun z => c * z)) = _
      simp only [alignPhase, hk]
      rw [getD_map_mul c b.amps k hkb, Cplx.div_mul_left]
    have hr2 : alignPhase tol a.amps b.amps
        = phaseRatio (Cplx.div (b.amps.getD k 0) (a.amps.getD k 0)) := by
      simp only [alignPhase, hk]
    rw [hr1, hr2]
    by_cases hz0 : Cplx.div (b.amps.getD k 0) (a.amps.getD k 0) = 0
    · rw [hz0, mul_zero, phaseRatio_zero]
      have hbk : b.amps.getD k 0 = 0 := (Cplx.div_eq_zero_iff_num hnz).mp hz0
      have hgt1 : tol < Cabs
          ((⟨b.amps.map (fun z => c * z)⟩ : StateVector ℝ).amps.getD k 0
            - 1 * a.amps.getD k 0) := by
        show tol < Cabs ((b.amps.map (fun z => c * z)).getD k 0 - 1 * a.amps.getD k 0)
        rw [getD_map_mul c b.amps k hkb, hbk, mul_zero, one_mul, zero_sub, Cabs_neg]
        exact hsig
      have hgt2 : tol < Cabs (b.amps.getD k 0 - 1 * a.amps.getD k 0) := by
        rw [hbk, one_mul, zero_sub, Cabs_neg]
        exact hsig
      have hlen1 : a.amps.length
          = (⟨b.amps.map (fun z => c * z)⟩ : StateVector ℝ).amps.length := by
        rw [hlm]
        exact hlen
      rw [amplitudesClose_false_at tol 1 a.amps _ hlen1 k hklt hgt1,
        amplitudesClose_false_at tol 1 a.amps b.amps hlen k hklt hgt2]
    · rw [phaseRatio_mul hc hz0]
      exact congrArg Except.ok (amplitudesClose_map_right hc tol
        (phaseRatio (Cplx.div (b.amps.getD k 0) (a.amps.getD k 0))) a.amps b.amps)

theorem equivalent_map_left (m n : ℕ) (tol : ℝ) (a b : StateVector ℝ)
    (ha : a.amps.length = 2 ^ m) (hb : b.amps.length = 2 ^ n) (htol : 0 ≤ tol)
    {c : Cplx ℝ} (hc : Cabs c = 1) (k : ℕ)
    (hk : firstSignificant tol a.amps = some k) :
    equivalent tol ⟨a.amps.map (fun z => c * z)⟩ b = equivalent tol a b := by
  have hpa : isPowTwo a.amps.length = true := (isPowTwo_iff _).mpr ⟨m, ha⟩
  have hpb : isPowTwo b.amps.length = true := (isPowTwo_iff _).mpr ⟨n, hb⟩
  have hpa' : isPowTwo ((⟨a.amps.map (fun z => c * z)⟩ : StateVector ℝ).amps.length)
      = true := by
    show isPowTwo (a.amps.map (fun z => c * z)).length = true
    rw [List.length_map]
    exact hpa
  have hc1 : c.normSq = 1 := normSq_eq_one_of_Cabs c hc
  have hspec := firstSignificant_spec tol a.amps k hk
  have hklt := hspec.1
  have hsig := hspec.2
  have hnz : (a.amps.getD k 0).normSq ≠ 0 := normSq_ne_zero_of_sig htol hsig
  have hk' : firstSignificant tol
      (⟨a.amps.map (fun z => c * z)⟩ : StateVector ℝ).amps = some k := by
    show firstSignificant tol (a.amps.map (fun z => c * z)) = some k
    rw [firstSignificant_map_mul hc tol a.amps]
    exact hk
  rw [equivalent_eq tol ⟨a.amps.map (fun z => c * z)⟩ b hpa' hpb,
    equivalent_eq tol a b hpa hpb]
  have hlm : (⟨a.amps.map (fun z => c * z)⟩ : StateVector ℝ).amps.length
      = a.amps.length := List.length_map _ _
  rw [hlm]
  by_cases hcond : Nat.log2 a.amps.length ≠ Nat.log2 b.amps.length
  · rw [if_pos hcond, if_pos hcond]
  · rw [if_neg hcond, if_neg hcond]
    have hmn : m = n := by
      have h2 := not_not.mp hcond
      rwa [ha, hb, log2_two_pow, log2_two_pow] at h2
    have hlen : a.amps.length = b.amps.length := by
      rw [ha, hb, hmn]
    have hr1 : alignPhase tol (⟨a.amps.map (fun z => c * z)⟩ : StateVector ℝ).amps b.amps
        = phaseRatio (c.conj * Cplx.div (b.amps.getD k 0) (a.amps.getD k 0)) := by
      simp only [alignPhase, hk']
      show phaseRatio (Cplx.div (b.amps.getD k 0)
        ((a.amps.map (fun z => c * z)).getD k 0)) = _
      rw [getD_map_mul c a.amps k hklt, Cplx.div_mul_right hc1]
    have hr2 : alignPhase tol a.amps b.amps
        = phaseRatio (Cplx.div (b.amps.getD k 0) (a.amps.getD k 0)) := by
      simp only [alignPhase, hk]
    rw [hr1, hr2]
    by_cases hz0 : Cplx.div (b.amps.getD k 0) (a.amps.getD k 0) = 0
    · rw [hz0, mul_zero, phaseRatio_zero]
      have hbk : b.amps.getD k 0 = 0 := (Cplx.div_eq_zero_iff_num hnz).mp hz0
      have hgt1 : tol < Cabs (b.amps.getD k 0
          - 1 * (⟨a.amps.map (fun z => c * z)⟩ : StateVector ℝ).amps.getD k 0) := by
        show tol < Cabs (b.amps.getD k 0 - 1 * (a.amps.map (fun z => c * z)).getD k 0)
        rw [getD_map_mul c a.amps k hklt, hbk, one_mul, zero_sub, Cabs_neg,
          Cabs_mul, hc, one_mul]
        exact hsig
      have hgt2 : tol < Cabs (b.amps.getD k 0 - 1 * a.amps.getD k 0) := by
        rw [hbk, one_mul, zero_sub, Cabs_neg]
        exact hsig
      have hlen1 : (⟨a.amps.map (fun z => c * z)⟩ : StateVector ℝ).amps.length
          = b.amps.length := by
        rw [hlm]
        exact hlen
      have hklt1 : k < (⟨a.amps.map (fun z => c * z)⟩ : StateVector ℝ).amps.length := by
        rw [hlm]
        exact hklt
      rw [amplitudesClose_false_at tol 1 _ b.amps hlen1 k hklt1 hgt1,
        amplitudesClose_false_at tol 1 a.amps b.amps hlen k hklt hgt2]
    · have hcConj : Cabs c.conj = 1 := by
        rw [Cabs_conj]
        exact hc
      rw [phaseRatio_mul hcConj hz0]
      exact congrArg Except.ok (amplitudesClose_map_left hc tol
        (phaseRatio (Cplx.div (b.amps.getD k 0) (a.amps.getD k 0))) a.amps b.amps)

/-- C3: `equivalent` fails with `DimensionError` exactly when the qubit
counts differ; otherwise it decides whether `b` coincides with a
unit-magnitude multiple of `a` within tolerance: a true answer exhibits a
unit phase factor aligning `a` with `b` element-wise within tolerance, an
exact global-phase multiple (with a significant amplitude present) is always
accepted, every StateVector is equivalent to itself, and the verdict is
unchanged when either operand is multiplied by any unit-magnitude complex
scalar. -/
theorem equivalent_spec (m n : ℕ) (tol : ℝ) (a b : StateVector ℝ)
    (ha : a.amps.length = 2 ^ m) (hb : b.amps.length = 2 ^ n) (htol : 0 ≤ tol) :
    (m ≠ n → equivalent tol a b = .error .DimensionError) ∧
    (m = n → ∃ res : Bool, equivalent tol a b = .ok res) ∧
    (equivalent tol a b = .ok true →
      ∃ c : Cplx ℝ, Cabs c = 1 ∧
        ∀ i, i < 2 ^ n → Cabs (b.amps.getD i 0 - c * a.amps.getD i 0) ≤ tol) ∧
    (∀ c : Cplx ℝ, Cabs c = 1 → b.amps = a.amps.map (fun z => c * z) →
      (∃ k, firstSignificant tol a.amps = some k) →
      equivalent tol a b = .ok true) ∧
    (equivalent tol a a = .ok true) ∧
    (∀ c : Cplx ℝ, Cabs c = 1 →
      (∃ k, firstSignificant tol a.amps = some k) →
      equivalent tol a ⟨b.amps.map (fun z => c * z)⟩ = equivalent tol a b ∧
      equivalent tol ⟨a.amps.map (fun z => c * z)⟩ b = equivalent tol a b) := by
  have hpa : isPowTwo a.amps.length = true := (isPowTwo_iff _).mpr ⟨m, ha⟩
  have hpb : isPowTwo b.amps.length = true := (isPowTwo_iff _).mpr ⟨n, hb⟩
  refine ⟨?_, ?_, ?_, ?_, ?_, ?_⟩
  · intro hmn
    rw [equivalent_eq tol a b hpa hpb, if_pos
      (show Nat.log2 a.amps.length ≠ Nat.log2 b.amps.length by
        rw [ha, hb, log2_two_pow, log2_two_pow]
        exact hmn)]
  · intro hmn
    rw [equivalent_eq tol a b hpa hpb, if_neg
      (show ¬Nat.log2 a.amps.length ≠ Nat.log2 b.amps.length by
        rw [ha, hb, log2_two_pow, log2_two_pow]
        exact not_not_intro hmn)]
    exact ⟨_, rfl⟩
  · intro htrue
    have hcond : ¬Nat.log2 a.amps.length ≠ Nat.log2 b.amps.length := by
      intro hcc
      rw [equivalent_eq tol a b hpa hpb, if_pos hcc] at htrue
      exact Except.noConfusion htrue
    have hmn : m = n := by
      have h2 := not_not.mp hcond
      rwa [ha, hb, log2_two_pow, log2_two_pow] at h2
    have hlen : a.amps.length = b.amps.length := by
      rw [ha, hb, hmn]
    rw [equivalent_eq tol a b hpa hpb, if_neg hcond] at htrue
    have hclose : amplitudesClose tol (alignPhase tol a.amps b.amps) a.amps b.amps
        = true := Except.ok.inj htrue
    refine ⟨alignPhase tol a.amps b.amps, Cabs_alignPhase tol a.amps b.amps,
      fun i hi => ?_⟩
    have hi' : i < a.amps.length := by
      rw [ha, hmn]
      exact hi
    exact (amplitudesClose_iff tol _ a.amps b.amps hlen).mp hclose i hi'
  · rintro c hc hmap ⟨k, hk⟩
    have hlen : b.amps.length = a.amps.length := by
      rw [hmap, List.length_map]
    have hcond : ¬Nat.log2 a.amps.length ≠ Nat.log2 b.amps.length :=
      not_not_intro (congrArg Nat.log2 hlen.symm)
    rw [equivalent_eq tol a b hpa hpb, if_neg hcond]
    have hspec := firstSignificant_spec tol a.amps k hk
    have hnz : (a.amps.getD k 0).normSq ≠ 0 := normSq_ne_zero_of_sig htol hspec.2
    have hbk : b.amps.getD k 0 = c * a.amps.getD k 0 := by
      rw [hmap]
      exact getD_map_mul c a.amps k hspec.1
    have hr : alignPhase tol a.amps b.amps = c := by
      simp only [alignPhase, hk]
      rw [hbk, Cplx.div_mul_left, Cplx.div_self_eq_one hnz, mul_one]
      exact phaseRatio_eq_self hc
    rw [hr, hmap]
    congr 1
    have h1 := amplitudesClose_map_right hc tol 1 a.amps a.amps
    rw [mul_one] at h1
    rw [h1]
    exact amplitudesClose_self tol htol a.amps
  · rw [equivalent_eq tol a a hpa hpa, if_neg (not_not_intro rfl)]
    congr 1
    cases hfs : firstSignificant tol a.amps with
    | none =>
      have hr : alignPhase tol a.amps a.amps = 1 := by
        simp only [alignPhase, hfs]
      rw [hr]
      exact amplitudesClose_self tol htol a.amps
    | some k =>
      have hspec := firstSignificant_spec tol a.amps k hfs
      have hnz := normSq_ne_zero_of_sig htol hspec.2
      have hr : alignPhase tol a.amps a.amps = 1 := by
        simp only [alignPhase, hfs]
        rw [Cplx.div_self_eq_one hnz]
        exact phaseRatio_eq_self Cabs_one
      rw [hr]
      exact amplitudesClose_self tol htol a.amps
  · rintro c hc ⟨k, hk⟩
    exact ⟨equivalent_map_right m n tol a b ha hb htol hc k hk,
      equivalent_map_left m n tol a b ha hb htol hc k hk⟩

/-- Concrete instantiation of `equivalent_spec`: the state constructed from
`[1, 0]` is equivalent to itself. -/
theorem equivalent_spec_witness :
    equivalent 0 ⟨[⟨1, 0⟩, ⟨0, 0⟩]⟩ ⟨[⟨1, 0⟩, ⟨0, 0⟩]⟩ = .ok true :=
  (equivalent_spec 1 1 0 ⟨[⟨1, 0⟩, ⟨0, 0⟩]⟩ ⟨[⟨1, 0⟩, ⟨0, 0⟩]⟩
    (by norm_num) (by norm_num) le_rfl).2.2.2.2.1

end QuantumSV
